import Mathlib

/-!
Verification development for the `rs-embl` batching client.

The definitions below are shallow embeddings of the Rust source:

* `RsEmbl.complement`, `RsEmbl.reverse_complement` embed
  `reverse_complement` from `src/transcript.rs` (the `panic!` on an
  unrecognized base is modelled by `Option.none`);
* `RsEmbl.exonsLoop`, `RsEmbl.exons` embed `GenomicSequence::exons` from
  `src/sequence.rs` (the out-of-bounds index panic on an empty sequence is
  modelled by `Option.none`);
* the `RsEmbl.Api` namespace embeds the dispatcher `Getter::process`, the
  drain-time registry construction in `Getter::new`, and the facade retry
  loop `Client::get` from `src/api.rs`.
-/

namespace RsEmbl

/-- Complement of a single nucleotide character, as in the `match` of
`reverse_complement` (`src/transcript.rs`).  The source panics on any other
character; we return `none` there. -/
def complement (c : Char) : Option Char :=
  if c = 'a' then some 't'
  else if c = 'A' then some 'T'
  else if c = 'c' then some 'g'
  else if c = 'C' then some 'G'
  else if c = 'g' then some 'c'
  else if c = 'G' then some 'C'
  else if c = 't' then some 'a'
  else if c = 'T' then some 'A'
  else none

/-- Complement every character of a list, failing if any character is not a
recognized base. -/
def complementList : List Char → Option (List Char)
  | [] => some []
  | c :: cs =>
    match complement c, complementList cs with
    | some d, some ds => some (d :: ds)
    | _, _ => none

/-- `reverse_complement` from `src/transcript.rs`: iterate the characters in
reverse order, pushing the complement of each.  A `none` result models the
source's `panic!` on an unrecognized base. -/
def reverse_complement (s : String) : Option String :=
  (complementList s.data.reverse).map fun l => String.mk l

/-- The eight characters accepted by `reverse_complement`. -/
def baseChars : List Char := ['a', 'c', 'g', 't', 'A', 'C', 'G', 'T']

/-- `char::from(seq.as_bytes()[i]).is_uppercase()` for an in-bounds index. -/
def isUpperAt (seq : List Char) (i : Nat) : Bool := (seq.getD i ' ').isUpper

/-- The Rust slice `&seq[start..e]`. -/
def sliceOf (seq : List Char) (start e : Nat) : List Char :=
  (seq.drop start).take (e - start)

/-- The `while end < self.seq.len()` loop of `GenomicSequence::exons`,
returning the final `(output, start, is_upper, end)` state.  The loop
advances `end` by one each iteration, so `seq.length - e` steps suffice; the
`fuel` argument makes that bound explicit (every use supplies enough fuel). -/
def exonsLoop (seq : List Char) : Nat → Nat → Nat → Bool → List (List Char) →
    List (List Char) × Nat × Bool × Nat
  | 0, start, e, isUp, out => (out, start, isUp, e)
  | fuel + 1, start, e, isUp, out =>
    if e < seq.length then
      if isUp = isUpperAt seq e then
        exonsLoop seq fuel start (e + 1) isUp out
      else
        if isUp then
          exonsLoop seq fuel e (e + 1) (isUpperAt seq e) (out ++ [sliceOf seq start e])
        else
          exonsLoop seq fuel e (e + 1) (isUpperAt seq e) out
    else (out, start, isUp, e)

/-- `GenomicSequence::exons` from `src/sequence.rs`.  The source first
evaluates `self.seq.as_bytes()[0]`, which panics (index out of bounds) on an
empty sequence; that is modelled by `none`. -/
def exons (seq : List Char) : Option (List (List Char)) :=
  if seq.length = 0 then none
  else
    match exonsLoop seq seq.length 0 1 (isUpperAt seq 0) [] with
    | (out, start, isUp, e) =>
      some (if 1 < e then (if isUp then out ++ [seq.drop start] else out) else out)

/-- The `GenomicSequence` record from `src/sequence.rs`. -/
structure GenomicSequence where
  query : String
  id : String
  desc : Option String
  seq : String

/-- `GenomicSequence::exons` applied to the record's `seq` field. -/
def GenomicSequence.exons (g : GenomicSequence) : Option (List (List Char)) :=
  RsEmbl.exons g.seq.data

/-- Fuel-indexed helper for `upperRuns`; `fuel ≥ length` always suffices.  -/
def upperRunsF : Nat → List Char → List (List Char)
  | _, [] => []
  | 0, _ :: _ => []
  | fuel + 1, c :: cs =>
    if c.isUpper then
      (c :: cs.takeWhile Char.isUpper) :: upperRunsF fuel (cs.dropWhile Char.isUpper)
    else upperRunsF fuel cs

/-- Specification function: the maximal contiguous runs of uppercase
characters of a list, in left-to-right order. -/
def upperRuns (l : List Char) : List (List Char) := upperRunsF l.length l

/-- The push performed after the loop of `exons`
(`if end > 1 { if is_upper { output.push(&self.seq[start..]) } }`),
applied to a final loop state. -/
def finishOf (seq : List Char) (r : List (List Char) × Nat × Bool × Nat) :
    List (List Char) :=
  if r.2.2.1 then r.1 ++ [seq.drop r.2.1] else r.1

namespace Api

/-- A parsed result item.  The dispatcher treats a `T` opaquely except for
`EnsemblPostEndpoint::input`, so an item is modelled as its extracted key
plus an opaque payload. -/
structure Item where
  input : String
  payload : Nat

deriving DecidableEq

/-- `EnsemblError` from `src/api.rs`. -/
structure EnsemblError where
  status_code : Int
  input : String
  error : String

deriving DecidableEq

/-- The value sent on a pending request's oneshot channel
(`Result<T, EnsemblError>`). -/
inductive Sig where
  | ok (item : Item)
  | err (e : EnsemblError)

deriving DecidableEq

/-- Identity of a oneshot response channel. -/
abbrev Chan := Nat

/-- One registry entry: (identifier, response channel). -/
abbrev Entry := String × Chan

/-- The pending-request map built by `Getter::process` (`map` in the
source): a `HashMap` represented as an association list with distinct
keys. -/
abbrev Registry := List Entry

/-- Outcome of `serde_json::from_str::<Vec<T>>` on a 200 body: either the
parsed list, or a failure carrying the serde error message. -/
inductive ListParse where
  | ok (items : List Item)
  | fail (msg : String)

deriving DecidableEq

/-- One HTTP response as observed by the dispatcher: the status code, the
parsed `X-RateLimit-Reset` header (`none` when absent or unparseable), the
two parse outcomes for a 200 body (`objParse = none` when the body parses as
neither a list nor a keyed object), and the body text used by the error
branches. -/
structure Response where
  status : Nat
  rateReset : Option Nat
  listParse : ListParse
  objParse : Option (List Item)
  bodyText : String

deriving DecidableEq

/-- The default of `EnsemblPostEndpoint::max_post_size` (`src/api.rs`).
Endpoints may override it, so the dispatcher model below is parameterized by
the endpoint's value `m`, passed where the source calls
`T::max_post_size()`. -/
def default_max_post_size : Nat := 50

/-- `Transcript::max_post_size` (`src/transcript.rs`). -/
def transcript_max_post_size : Nat := 1000

/-- `VEPAnalysis::max_post_size` and `VEPResult::max_post_size`
(`src/vep.rs`). -/
def vep_max_post_size : Nat := 200

/-- The serde error message produced when the 200 body is a JSON object
rather than a list; the source compares against this exact string to decide
whether to print the parse error. -/
def mapErrMsg : String := "invalid type: map, expected a sequence at line 1 column 0"

/-- Rust's panic message for `Option::unwrap` on `None`
(`map.remove(..).unwrap()`). -/
def unwrapNoneMsg : String := "called Option::unwrap() on a None value"

/-- The retryable status set of `Client::get`
(`[403, 408, 429, 502, 503].contains(&e.status_code)`). -/
def retryableStatuses : List Int := [403, 408, 429, 502, 503]

def err400 (body id : String) : EnsemblError :=
  ⟨400, id, "Bad Request: " ++ body⟩

def err403 (id : String) : EnsemblError :=
  ⟨403, id, "403 Forbidden: Too many requests."⟩

def err404 (id : String) : EnsemblError :=
  ⟨404, id, "Not Found: Badly formatted request."⟩

def err408 (id : String) : EnsemblError :=
  ⟨408, id, "Request Timeout. Pausing requests for 1 minute"⟩

def err429 (reset : Nat) (id : String) : EnsemblError :=
  ⟨429, id, s!"Too Many Requests: Rate limit resets in {reset} seconds."⟩

def err502 (id : String) : EnsemblError :=
  ⟨502, id, "Bad gateway."⟩

def err503 (id : String) : EnsemblError :=
  ⟨503, id, "Service Unavailable."⟩

def errOther (status : Nat) (body id : String) : EnsemblError :=
  ⟨(status : Int), id, body⟩

/-- The error built by the final drain of `Getter::process` for identifiers
that received no result. -/
def noResultError (id : String) : EnsemblError :=
  ⟨404, id,
    s!"The input {id} did not give results, usually this means that it is not formated correctly."⟩

/-- `map.remove(&id)`: remove the entry with the given key, returning its
channel and the remaining registry; `none` models a failed removal (the
source would then panic on `.unwrap()`). -/
def removeKey : Registry → String → Option (Chan × Registry)
  | [], _ => none
  | (k, c) :: rest, id =>
    if k = id then some (c, rest)
    else
      match removeKey rest id with
      | some (c', rest') => some (c', (k, c) :: rest')
      | none => none

/-- Dispatcher state threaded through the sub-batch loop of
`Getter::process`: the remaining registry, the signals sent so far (in send
order), the sleeps performed, the identifier lists of the POST calls issued,
and the parse error messages printed to stderr. -/
structure DispatchState where
  reg : Registry
  signals : List (Entry × Sig)
  sleeps : List Nat
  calls : List (List String)
  surfaced : List String

deriving DecidableEq

/-- Outcome of a dispatcher step: normal completion, or a Rust panic. -/
inductive DOut where
  | panic (msg : String)
  | done (st : DispatchState)

deriving DecidableEq

/-- The `for output in outputs` loop of the 200 branch: remove each item's
extracted key from the registry and send the item; a failed removal is the
source's `unwrap` panic (`none`). -/
def deliverItems : Registry → List (Entry × Sig) → List Item →
    Option (Registry × List (Entry × Sig))
  | reg, sigs, [] => some (reg, sigs)
  | reg, sigs, item :: rest =>
    match removeKey reg item.input with
    | none => none
    | some (c, reg') =>
      deliverItems reg' (sigs ++ [((item.input, c), Sig.ok item)]) rest

/-- The `for id in keys` loop of an error branch: remove each sub-batch key
from the registry and send it the branch's error. -/
def failAll (mk : String → EnsemblError) : Registry → List (Entry × Sig) →
    List String → Option (Registry × List (Entry × Sig))
  | reg, sigs, [] => some (reg, sigs)
  | reg, sigs, id :: rest =>
    match removeKey reg id with
    | none => none
    | some (c, reg') =>
      failAll mk reg' (sigs ++ [((id, c), Sig.err (mk id))]) rest

/-- The 200 branch's delivery step lifted to the dispatcher state. -/
def deliverBranch (st : DispatchState) (items : List Item) : DOut :=
  match deliverItems st.reg st.signals items with
  | some (reg', sigs') => DOut.done { st with reg := reg', signals := sigs' }
  | none => DOut.panic unwrapNoneMsg

/-- An error branch lifted to the dispatcher state, optionally followed by a
throttle sleep. -/
def failBranch (st : DispatchState) (keys : List String)
    (mk : String → EnsemblError) (pause : Option Nat) : DOut :=
  match failAll mk st.reg st.signals keys with
  | some (reg', sigs') =>
    DOut.done { st with reg := reg', signals := sigs',
                        sleeps := st.sleeps ++ pause.toList }
  | none => DOut.panic unwrapNoneMsg

/-- One iteration of the `while ids_vec.len() > 0` loop of
`Getter::process`: issue the POST for this sub-batch (recorded in `calls`)
and handle the response by status code exactly as the source's `match`. -/
def processSub (st : DispatchState) (keys : List String) (r : Response) : DOut :=
  let st0 : DispatchState := { st with calls := st.calls ++ [keys] }
  if r.status = 200 then
    match r.listParse with
    | ListParse.ok items => deliverBranch st0 items
    | ListParse.fail msg =>
      let st1 : DispatchState :=
        if msg = mapErrMsg then st0
        else { st0 with surfaced := st0.surfaced ++ [msg] }
      match r.objParse with
      | some items => deliverBranch st1 items
      | none =>
        DOut.panic ("Failed to parse the following response: " ++ r.bodyText)
  else if r.status = 400 then failBranch st0 keys (err400 r.bodyText) none
  else if r.status = 403 then failBranch st0 keys err403 (some 300)
  else if r.status = 404 then failBranch st0 keys err404 none
  else if r.status = 408 then failBranch st0 keys err408 (some 60)
  else if r.status = 429 then
    failBranch st0 keys (err429 (r.rateReset.getD 60)) (some (r.rateReset.getD 60))
  else if r.status = 502 then failBranch st0 keys err502 (some 10)
  else if r.status = 503 then failBranch st0 keys err503 (some 10)
  else failBranch st0 keys (errOther r.status r.bodyText) none

/-- Fuel-indexed splitting of `ids_vec` into sub-batches of at most `m`
identifiers, `m` being the endpoint's `max_post_size()`
(`ids_vec.drain(..usize::min(ids_vec.len(), T::max_post_size()))`);
`fuel ≥ length` suffices whenever `1 ≤ m`.  (With `m = 0` the source's
`while` loop would never terminate; every endpoint of the repository
declares `m ≥ 50`.) -/
def chunksF (m : Nat) : Nat → List String → List (List String)
  | _, [] => []
  | 0, _ :: _ => []
  | fuel + 1, x :: xs =>
    ((x :: xs).take m) :: chunksF m fuel ((x :: xs).drop m)

/-- The sub-batches drained from a key list by an endpoint with
`max_post_size() = m`. -/
def chunks (m : Nat) (ids : List String) : List (List String) :=
  chunksF m ids.length ids

/-- The sub-batch loop: each iteration consumes one HTTP response; an
exhausted response list models a transport failure, on which the source
panics (`.send().await.unwrap()`). -/
def processSubs : DispatchState → List (List String) → List Response → DOut
  | st, [], _ => DOut.done st
  | st, keys :: restKeys, r :: restR =>
    match processSub st keys r with
    | DOut.panic msg => DOut.panic msg
    | DOut.done st' => processSubs st' restKeys restR
  | _, _ :: _, [] => DOut.panic "transport failure"

/-- The observable outcome of one `Getter::process` run: the signals sent
from the sub-batch branches, the signals sent by the final
"did not give results" drain, the sleeps, the POST calls, and the printed
parse errors.  The registry is fully drained on completion. -/
structure ProcessResult where
  signals : List (Entry × Sig)
  late : List (Entry × Sig)
  sleeps : List Nat
  calls : List (List String)
  surfaced : List String

deriving DecidableEq

/-- Outcome of `Getter::process`: normal completion or a Rust panic. -/
inductive POut where
  | panic (msg : String)
  | done (r : ProcessResult)

deriving DecidableEq

def initState (reg : Registry) : DispatchState := ⟨reg, [], [], [], []⟩

/-- The final `for (id, sender) in &mut map.drain()` loop of
`Getter::process`. -/
def finalDrain (reg : Registry) : List (Entry × Sig) :=
  reg.map fun p => ((p.1, p.2), Sig.err (noResultError p.1))

/-- `Getter::process` for an endpoint with `max_post_size() = m`: return
immediately on an empty input, otherwise run the sub-batch loop over the
key list chunked at `m` and finish with the "did not give results" drain of
whatever is left in the registry. -/
def process (m : Nat) (reg : Registry) (rs : List Response) : POut :=
  if reg.isEmpty then POut.done ⟨[], [], [], [], []⟩
  else
    match processSubs (initState reg) (chunks m (reg.map Prod.fst)) rs with
    | DOut.panic msg => POut.panic msg
    | DOut.done st =>
      POut.done ⟨st.signals, finalDrain st.reg, st.sleeps, st.calls, st.surfaced⟩

/-- A value received by `Client::get` from its oneshot channel:
`Ok(Ok(t))`, `Ok(Err(e))`, or a channel error `Err(e)`. -/
inductive Recv where
  | ok (item : Item)
  | err (e : EnsemblError)
  | closed (msg : String)

deriving DecidableEq

deriving instance DecidableEq for Except

/-- The observable outcome of one `Client::get` call: the returned value,
the final value of the `retries` counter, and the number of channel receives
consumed (equivalently, the number of submissions to the mailbox). -/
structure GetResult where
  result : Except EnsemblError Item
  retries : Nat
  attempts : Nat

deriving DecidableEq

/-- The `loop { match rx.await { .. } }` of `Client::get`, driven by the
sequence of values the dispatcher delivers on the successive channels.
`none` models a call still awaiting a response. -/
def getLoop (id : String) : List Recv → Nat → Option GetResult
  | [], _ => none
  | Recv.ok t :: _, retries => some ⟨Except.ok t, retries, 1⟩
  | Recv.err e :: rest, retries =>
    if retries + 1 < 3 ∧ e.status_code ∈ retryableStatuses then
      match getLoop id rest (retries + 1) with
      | some r => some { r with attempts := r.attempts + 1 }
      | none => none
    else some ⟨Except.error e, retries + 1, 1⟩
  | Recv.closed msg :: _, retries => some ⟨Except.error ⟨0, id, msg⟩, retries, 1⟩

/-- `Client::get` for one identifier, starting with `retries = 0`. -/
def clientGet (id : String) (recvs : List Recv) : Option GetResult :=
  getLoop id recvs 0

/-- `gets.insert(key, value)` of the drain loop in `Getter::new`: a
`HashMap` insert, replacing any existing entry for the key. -/
def hmInsert (m : Registry) (k : String) (c : Chan) : Registry :=
  (m.filter fun p => !(p.1 == k)) ++ [(k, c)]

/-- The registry built by draining the mailbox: the received
(identifier, channel) pairs inserted in arrival order. -/
def insertAll (pairs : List Entry) : Registry :=
  pairs.foldl (fun m p => hmInsert m p.1 p.2) []

/-- A signal is well-addressed when the carried item or error names the
identifier of the channel it was sent on. -/
def sigMatches : Entry × Sig → Prop
  | ((id, _), Sig.ok item) => item.input = id
  | ((id, _), Sig.err e) => e.input = id

/-- Forget the channel of a signal, keeping (identifier, payload). -/
def strip (p : Entry × Sig) : String × Sig := (p.1.1, p.2)

/-- The `DispatchState`/`ProcessResult` a run produces, defaulting to the
empty result on a panic; used to name concrete runs in closed statements. -/
def processOrEmpty (m : Nat) (reg : Registry) (rs : List Response) : ProcessResult :=
  match process m reg rs with
  | POut.done r => r
  | POut.panic _ => ⟨[], [], [], [], []⟩

/-- The state a single sub-batch step produces, defaulting to the input
state on a panic. -/
def processSubOr (st : DispatchState) (keys : List String) (r : Response) :
    DispatchState :=
  match processSub st keys r with
  | DOut.done st' => st'
  | DOut.panic _ => st

def regW1 : Registry := [("a", 0), ("b", 1)]

def rsW1 : List Response := [⟨200, none, ListParse.ok [⟨"b", 7⟩], none, ""⟩]

def regW2 : Registry := (List.range 120).map fun i => (toString i, i)

def rsW2 : List Response := [⟨404, none, ListParse.fail "", none, "nf"⟩,
  ⟨404, none, ListParse.fail "", none, "nf"⟩,
  ⟨404, none, ListParse.fail "", none, "nf"⟩]

def regW4 : Registry := [("a", 0), ("b", 1)]

def rsW4 : List Response := [⟨200, none, ListParse.ok [⟨"b", 7⟩], none, ""⟩]

def stW5 : DispatchState := initState [("a", 0)]

def rW5 : Response := ⟨200, none, ListParse.fail mapErrMsg, some [⟨"a", 3⟩], "body"⟩

def stW7 : DispatchState := initState [("a", 0), ("b", 1)]

def rW7 : Response := ⟨429, some 17, ListParse.fail "", none, ""⟩

def stW8 : DispatchState := initState [("a", 0)]

def rW8 : Response := ⟨200, none, ListParse.ok [⟨"a", 1⟩, ⟨"a", 2⟩], none, ""⟩

end Api

theorem complement_isSome_iff (c : Char) : (complement c).isSome ↔ c ∈ baseChars := by
  simp only [complement, baseChars, List.mem_cons, List.not_mem_nil, or_false]
  split_ifs <;> simp_all

theorem complement_involutive {c d : Char} (h : complement c = some d) :
    complement d = some c := by
  simp only [complement] at h
  split_ifs at h <;>
    first
      | exact Option.noConfusion h
      | (injection h with hd; subst hd; subst_vars; decide)

theorem complement_case {c d : Char} (h : complement c = some d) :
    d.isUpper = c.isUpper := by
  simp only [complement] at h
  split_ifs at h <;>
    first
      | exact Option.noConfusion h
      | (injection h with hd; subst hd; subst_vars; decide)

theorem complementList_isSome {l : List Char} (h : ∀ c ∈ l, c ∈ baseChars) :
    ∃ m, complementList l = some m := by
  induction l with
  | nil => exact ⟨[], rfl⟩
  | cons c cs ih =>
    obtain ⟨m, hm⟩ := ih fun x hx => h x (List.mem_cons_of_mem _ hx)
    have hc : (complement c).isSome := by
      rw [complement_isSome_iff]; exact h c (List.mem_cons_self _ _)
    obtain ⟨d, hd⟩ := Option.isSome_iff_exists.mp hc
    exact ⟨d :: m, by simp [complementList, hd, hm]⟩

theorem complementList_involutive {l m : List Char} (h : complementList l = some m) :
    complementList m = some l := by
  induction l generalizing m with
  | nil =>
    simp only [complementList] at h
    cases h
    rfl
  | cons c cs ih =>
    simp only [complementList] at h
    cases hc : complement c with
    | none => rw [hc] at h; simp at h
    | some d =>
      rw [hc] at h
      cases hcs : complementList cs with
      | none => rw [hcs] at h; simp at h
      | some ds =>
        rw [hcs] at h
        simp only at h
        cases h
        have := ih hcs
        simp [complementList, complement_involutive hc, this]

theorem complementList_length {l m : List Char} (h : complementList l = some m) :
    m.length = l.length := by
  induction l generalizing m with
  | nil => simp only [complementList] at h; cases h; rfl
  | cons c cs ih =>
    simp only [complementList] at h
    cases hc : complement c with
    | none => rw [hc] at h; simp at h
    | some d =>
      rw [hc] at h
      cases hcs : complementList cs with
      | none => rw [hcs] at h; simp at h
      | some ds =>
        rw [hcs] at h; simp only at h; cases h
        simp [ih hcs]

theorem complementList_case {l m : List Char} (h : complementList l = some m) :
    ∀ i, (m.getD i ' ').isUpper = (l.getD i ' ').isUpper := by
  induction l generalizing m with
  | nil => simp only [complementList] at h; cases h; intro i; rfl
  | cons c cs ih =>
    simp only [complementList] at h
    cases hc : complement c with
    | none => rw [hc] at h; simp at h
    | some d =>
      rw [hc] at h
      cases hcs : complementList cs with
      | none => rw [hcs] at h; simp at h
      | some ds =>
        rw [hcs] at h; simp only at h; cases h
        intro i
        cases i with
        | zero => simpa using complement_case hc
        | succ j => simpa using ih hcs j

theorem complementList_append {l1 l2 m1 m2 : List Char}
    (h1 : complementList l1 = some m1) (h2 : complementList l2 = some m2) :
    complementList (l1 ++ l2) = some (m1 ++ m2) := by
  induction l1 generalizing m1 with
  | nil => simp only [complementList] at h1; cases h1; simpa using h2
  | cons c cs ih =>
    simp only [complementList] at h1 ⊢
    cases hc : complement c with
    | none => rw [hc] at h1; simp at h1
    | some d =>
      rw [hc] at h1
      cases hcs : complementList cs with
      | none => rw [hcs] at h1; simp at h1
      | some ds =>
        rw [hcs] at h1; simp only at h1; cases h1
        simp [ih hcs]

theorem complementList_reverse {l m : List Char} (h : complementList l = some m) :
    complementList l.reverse = some m.reverse := by
  induction l generalizing m with
  | nil => simp only [complementList] at h; cases h; rfl
  | cons c cs ih =>
    simp only [complementList] at h
    cases hc : complement c with
    | none => rw [hc] at h; simp at h
    | some d =>
      rw [hc] at h
      cases hcs : complementList cs with
      | none => rw [hcs] at h; simp at h
      | some ds =>
        rw [hcs] at h; simp only at h; cases h
        have hsingle : complementList [c] = some [d] := by simp [complementList, hc]
        simpa using complementList_append (ih hcs) hsingle

theorem getD_reverse {l : List Char} {i : Nat} (h : i < l.length) :
    l.reverse.getD i ' ' = l.getD (l.length - 1 - i) ' ' := by
  have h' : l.length - 1 - i < l.length := by omega
  rw [List.getD_eq_getElem l.reverse _ (by simpa using h),
    List.getD_eq_getElem l _ h']
  rw [List.getElem_reverse]

/-- C9: `reverse_complement` is an involution on strings over
`a c g t A C G T`: it succeeds, applying it twice returns the original
string, the result has the same length, and position `i` of the result has
the same case as position `length - 1 - i` of the input (the case of each
base is preserved under the reversal). -/
theorem reverse_complement_involution (s : String)
    (h : ∀ c ∈ s.data, c ∈ baseChars) :
    ∃ t, reverse_complement s = some t ∧
      reverse_complement t = some s ∧
      t.length = s.length ∧
      ∀ i, i < s.length →
        (t.data.getD i ' ').isUpper = (s.data.getD (s.length - 1 - i) ' ').isUpper := by
  have hrev : ∀ c ∈ s.data.reverse, c ∈ baseChars := by
    intro c hc; exact h c (List.mem_reverse.mp hc)
  obtain ⟨m, hm⟩ := complementList_isSome hrev
  refine ⟨String.mk m, ?_, ?_, ?_, ?_⟩
  · simp [reverse_complement, hm]
  · have h1 : complementList m = some s.data.reverse := complementList_involutive hm
    have h2 : complementList m.reverse = some s.data.reverse.reverse :=
      complementList_reverse h1
    rw [List.reverse_reverse] at h2
    show (complementList (String.mk m).data.reverse).map (fun l => String.mk l) = some s
    cases s with
    | mk data => simp [h2]
  · show m.length = s.data.length
    rw [complementList_length hm, List.length_reverse]
  · intro i hi
    have hcase := complementList_case hm i
    show (m.getD i ' ').isUpper = _
    rw [hcase, getD_reverse hi]
    rfl

/-- Concrete instance of `reverse_complement_involution` at the valid input
`"acGT"`. -/
theorem reverse_complement_involution_witness :
    reverse_complement "acGT" = some "ACgt" ∧ reverse_complement "ACgt" = some "acGT" := by
  obtain ⟨t, h1, h2, -, -⟩ := reverse_complement_involution "acGT" (by decide)
  have heval : reverse_complement "acGT" = some "ACgt" := by rfl
  have ht : t = "ACgt" := by
    rw [heval] at h1
    exact (Option.some.inj h1).symm
  subst ht
  exact ⟨h1, h2⟩

/-! ### `GenomicSequence::exons` (`src/sequence.rs`) -/

theorem upperRunsF_fuel :
    ∀ (f f' : Nat) (l : List Char), l.length ≤ f → l.length ≤ f' →
      upperRunsF f l = upperRunsF f' l := by
  intro f
  induction f with
  | zero =>
    intro f' l hf _
    cases l with
    | nil => cases f' <;> rfl
    | cons c cs => simp at hf
  | succ n ih =>
    intro f' l hf hf'
    cases l with
    | nil => cases f' <;> rfl
    | cons c cs =>
      cases f' with
      | zero => simp at hf'
      | succ m =>
        have hdrop : (List.dropWhile Char.isUpper cs).Sublist cs :=
          List.dropWhile_sublist _
        have hdl := hdrop.length_le
        simp only [List.length_cons] at hf hf'
        simp only [upperRunsF]
        by_cases hc : c.isUpper
        · rw [if_pos hc, if_pos hc, ih m _ (by omega) (by omega)]
        · rw [if_neg hc, if_neg hc, ih m _ (by omega) (by omega)]

theorem upperRuns_nil : upperRuns [] = [] := rfl

theorem upperRuns_cons (c : Char) (cs : List Char) :
    upperRuns (c :: cs) =
      if c.isUpper then
        (c :: cs.takeWhile Char.isUpper) :: upperRuns (cs.dropWhile Char.isUpper)
      else upperRuns cs := by
  show upperRunsF (cs.length + 1) (c :: cs) = _
  have hdrop : (List.dropWhile Char.isUpper cs).Sublist cs := List.dropWhile_sublist _
  have hdl := hdrop.length_le
  simp only [upperRunsF]
  by_cases hc : c.isUpper
  · rw [if_pos hc, if_pos hc,
      upperRunsF_fuel cs.length (List.dropWhile Char.isUpper cs).length _ (by omega)
        (by omega)]
    rfl
  · rw [if_neg hc, if_neg hc]
    rfl

theorem takeWhile_append_of {p : Char → Bool} {u v : List Char}
    (hu : ∀ a ∈ u, p a = true) (hv : ∀ a ∈ v.take 1, p a = false) :
    (u ++ v).takeWhile p = u := by
  induction u with
  | nil =>
    cases v with
    | nil => rfl
    | cons x xs =>
      have hx : p x = false := hv x (by simp)
      simp [List.takeWhile, hx]
  | cons c cs ih =>
    have hc : p c = true := hu c (List.mem_cons_self _ _)
    simp only [List.cons_append, List.takeWhile_cons, hc, if_true]
    rw [ih fun a ha => hu a (List.mem_cons_of_mem _ ha)]

theorem dropWhile_append_of {p : Char → Bool} {u v : List Char}
    (hu : ∀ a ∈ u, p a = true) (hv : ∀ a ∈ v.take 1, p a = false) :
    (u ++ v).dropWhile p = v := by
  induction u with
  | nil =>
    cases v with
    | nil => rfl
    | cons x xs =>
      have hx : p x = false := hv x (by simp)
      simp [List.dropWhile, hx]
  | cons c cs ih =>
    have hc : p c = true := hu c (List.mem_cons_self _ _)
    simp only [List.cons_append, List.dropWhile_cons, hc, if_true]
    exact ih fun a ha => hu a (List.mem_cons_of_mem _ ha)

theorem upperRuns_all_upper {l : List Char} (hne : l ≠ [])
    (h : ∀ c ∈ l, c.isUpper = true) : upperRuns l = [l] := by
  cases l with
  | nil => exact absurd rfl hne
  | cons c cs =>
    have hc : c.isUpper = true := h c (List.mem_cons_self _ _)
    have hcs : ∀ a ∈ cs, Char.isUpper a = true :=
      fun a ha => h a (List.mem_cons_of_mem _ ha)
    have htake : cs.takeWhile Char.isUpper = cs := by
      have h' := takeWhile_append_of (u := cs) (v := []) hcs (by simp)
      simpa using h'
    have hdrop : cs.dropWhile Char.isUpper = [] := by
      have h' := dropWhile_append_of (u := cs) (v := []) hcs (by simp)
      simpa using h'
    rw [upperRuns_cons, if_pos hc, htake, hdrop, upperRuns_nil]

theorem upperRuns_all_lower {l : List Char} (h : ∀ c ∈ l, c.isUpper = false) :
    upperRuns l = [] := by
  induction l with
  | nil => exact upperRuns_nil
  | cons c cs ih =>
    have hc : c.isUpper = false := h c (List.mem_cons_self _ _)
    rw [upperRuns_cons, if_neg (by simp [hc])]
    exact ih fun a ha => h a (List.mem_cons_of_mem _ ha)

theorem upperRuns_lower_append {u v : List Char} (h : ∀ c ∈ u, c.isUpper = false) :
    upperRuns (u ++ v) = upperRuns v := by
  induction u with
  | nil => rfl
  | cons c cs ih =>
    have hc : c.isUpper = false := h c (List.mem_cons_self _ _)
    rw [List.cons_append, upperRuns_cons, if_neg (by simp [hc])]
    exact ih fun a ha => h a (List.mem_cons_of_mem _ ha)

theorem upperRuns_run_append {u v : List Char} (hne : u ≠ [])
    (hu : ∀ c ∈ u, c.isUpper = true) (hv : ∀ c ∈ v.take 1, c.isUpper = false) :
    upperRuns (u ++ v) = u :: upperRuns v := by
  cases u with
  | nil => exact absurd rfl hne
  | cons c cs =>
    have hc : c.isUpper = true := hu c (List.mem_cons_self _ _)
    have hcs : ∀ a ∈ cs, Char.isUpper a = true :=
      fun a ha => hu a (List.mem_cons_of_mem _ ha)
    rw [List.cons_append, upperRuns_cons, if_pos hc,
      takeWhile_append_of hcs hv, dropWhile_append_of hcs hv]

theorem sliceOf_self (seq : List Char) (start : Nat) : sliceOf seq start start = [] := by
  simp [sliceOf]

theorem sliceOf_snoc {seq : List Char} {start e : Nat} (h1 : start ≤ e)
    (h2 : e < seq.length) :
    sliceOf seq start (e + 1) = sliceOf seq start e ++ [seq.getD e ' '] := by
  unfold sliceOf
  have hidx : e + 1 - start = (e - start) + 1 := by omega
  rw [hidx, List.take_succ]
  congr 1
  have hidx2 : (seq.drop start)[e - start]? = seq[e]? := by
    rw [List.getElem?_drop]
    congr 1
    omega
  rw [hidx2, List.getElem?_eq_getElem h2, Option.toList_some,
    List.getD_eq_getElem seq ' ' h2]

theorem sliceOf_singleton {seq : List Char} {e : Nat} (h : e < seq.length) :
    sliceOf seq e (e + 1) = [seq.getD e ' '] := by
  rw [sliceOf_snoc (Nat.le_refl e) h, sliceOf_self, List.nil_append]

theorem drop_eq_sliceOf_append {seq : List Char} {start e : Nat} (h1 : start ≤ e) :
    seq.drop start = sliceOf seq start e ++ seq.drop e := by
  unfold sliceOf
  conv_lhs => rw [← List.take_append_drop (e - start) (seq.drop start)]
  congr 1
  rw [List.drop_drop]
  congr 1
  omega

theorem sliceOf_terminal {seq : List Char} {start : Nat} :
    sliceOf seq start seq.length = seq.drop start := by
  unfold sliceOf
  apply List.take_of_length_le
  rw [List.length_drop]

theorem sliceOf_ne_nil {seq : List Char} {start e : Nat} (h1 : start < e)
    (h2 : e ≤ seq.length) : sliceOf seq start e ≠ [] := by
  unfold sliceOf
  intro hcon
  have hlen := congrArg List.length hcon
  rw [List.length_take, List.length_drop, List.length_nil] at hlen
  omega

theorem exonsLoop_stop {seq : List Char} {fuel start e : Nat} {isUp : Bool}
    {out : List (List Char)} (h : seq.length ≤ e) :
    exonsLoop seq fuel start e isUp out = (out, start, isUp, e) := by
  cases fuel with
  | zero => rfl
  | succ n =>
    simp only [exonsLoop]
    rw [if_neg (by omega)]

theorem exonsLoop_finish {seq : List Char} {fuel start e : Nat} {isUp : Bool}
    {out : List (List Char)} (h1 : start < e) (he : e = seq.length)
    (hs : ∀ c ∈ sliceOf seq start e, c.isUpper = isUp) :
    finishOf seq (exonsLoop seq fuel start e isUp out) = out ++ upperRuns (seq.drop start) ∧
    (exonsLoop seq fuel start e isUp out).2.2.2 = seq.length := by
  rw [exonsLoop_stop (by omega)]
  subst he
  rw [sliceOf_terminal] at hs
  have hne : seq.drop start ≠ [] := by
    intro hcon
    have hlen := congrArg List.length hcon
    rw [List.length_drop, List.length_nil] at hlen
    omega
  refine ⟨?_, rfl⟩
  cases isUp with
  | true => simp [finishOf, upperRuns_all_upper hne hs]
  | false => simp [finishOf, upperRuns_all_lower hs]

theorem exonsLoop_spec (seq : List Char) :
    ∀ fuel e start isUp out, seq.length ≤ e + fuel → start < e → e ≤ seq.length →
      (∀ c ∈ sliceOf seq start e, c.isUpper = isUp) →
      finishOf seq (exonsLoop seq fuel start e isUp out) = out ++ upperRuns (seq.drop start) ∧
      (exonsLoop seq fuel start e isUp out).2.2.2 = seq.length := by
  intro fuel
  induction fuel with
  | zero =>
    intro e start isUp out hf h1 h2 hs
    exact exonsLoop_finish h1 (by omega) hs
  | succ n ih =>
    intro e start isUp out hf h1 h2 hs
    by_cases hlt : e < seq.length
    · simp only [exonsLoop]
      rw [if_pos hlt]
      by_cases hb : isUp = isUpperAt seq e
      · rw [if_pos hb]
        apply ih (e + 1) start isUp out (by omega) (by omega) (by omega)
        rw [sliceOf_snoc (by omega) hlt]
        intro c hc
        rcases List.mem_append.mp hc with hc' | hc'
        · exact hs c hc'
        · rw [List.mem_singleton.mp hc']
          exact hb.symm
      · rw [if_neg hb]
        have hsing : ∀ c ∈ sliceOf seq e (e + 1), c.isUpper = isUpperAt seq e := by
          rw [sliceOf_singleton hlt]
          intro c hc
          rw [List.mem_singleton.mp hc]
          rfl
        have hv1 : ∀ c ∈ (seq.drop e).take 1, c.isUpper = isUpperAt seq e := by
          have : (seq.drop e).take 1 = sliceOf seq e (e + 1) := by
            unfold sliceOf
            congr 1
            omega
          rw [this]
          exact hsing
        cases hu : isUp with
        | true =>
          rw [if_pos rfl]
          obtain ⟨ha, hb2⟩ :=
            ih (e + 1) e (isUpperAt seq e) (out ++ [sliceOf seq start e])
              (by omega) (by omega) (by omega) hsing
          refine ⟨?_, hb2⟩
          rw [ha]
          have hupat : isUpperAt seq e = false := by
            cases hval : isUpperAt seq e with
            | true => rw [hu, hval] at hb; exact absurd rfl hb
            | false => rfl
          have hrun : upperRuns (seq.drop start) =
              sliceOf seq start e :: upperRuns (seq.drop e) := by
            rw [drop_eq_sliceOf_append (Nat.le_of_lt h1)]
            apply upperRuns_run_append (sliceOf_ne_nil h1 (Nat.le_of_lt hlt))
            · intro c hc
              rw [hs c hc, hu]
            · intro c hc
              rw [hv1 c hc, hupat]
          rw [hrun]
          simp
        | false =>
          rw [if_neg (by simp)]
          obtain ⟨ha, hb2⟩ :=
            ih (e + 1) e (isUpperAt seq e) out (by omega) (by omega) (by omega) hsing
          refine ⟨?_, hb2⟩
          rw [ha]
          have hlow : upperRuns (seq.drop start) = upperRuns (seq.drop e) := by
            rw [drop_eq_sliceOf_append (Nat.le_of_lt h1)]
            apply upperRuns_lower_append
            intro c hc
            rw [hs c hc, hu]
          rw [hlow]
    · exact exonsLoop_finish h1 (by omega) hs

/-- C10: for every `GenomicSequence` whose `seq` has length at least 2,
`exons` returns exactly the maximal contiguous runs of uppercase characters
of `seq`, in left-to-right order; on an empty `seq` the source panics with an
out-of-bounds index (modelled by `none`) instead of returning an empty
list. -/
theorem exons_maximal_upper_runs (g : GenomicSequence) :
    (2 ≤ g.seq.length → g.exons = some (upperRuns g.seq.data)) ∧
    (g.seq.length = 0 → g.exons = none) := by
  constructor
  · intro h2
    have hlen : 2 ≤ g.seq.data.length := h2
    show exons g.seq.data = _
    have hs1 : ∀ c ∈ sliceOf g.seq.data 0 1, c.isUpper = isUpperAt g.seq.data 0 := by
      have hsl : sliceOf g.seq.data 0 1 = [g.seq.data.getD 0 ' '] :=
        sliceOf_singleton (e := 0) (by omega)
      rw [hsl]
      intro c hc
      rw [List.mem_singleton.mp hc]
      rfl
    obtain ⟨ha, he⟩ := exonsLoop_spec g.seq.data g.seq.data.length 1 0
      (isUpperAt g.seq.data 0) [] (by omega) (by omega) (by omega) hs1
    unfold exons
    rw [if_neg (by omega)]
    rcases hR : exonsLoop g.seq.data g.seq.data.length 0 1 (isUpperAt g.seq.data 0) []
      with ⟨out, start, isUp, e⟩
    rw [hR] at ha he
    simp only at ha he
    have he2 : 1 < e := by omega
    show some (if 1 < e then (if isUp then out ++ [g.seq.data.drop start] else out) else out) =
      some (upperRuns g.seq.data)
    rw [if_pos he2]
    have hfin : (if isUp then out ++ [g.seq.data.drop start] else out) =
        finishOf g.seq.data (out, start, isUp, e) := rfl
    rw [hfin, ha, List.nil_append, List.drop_zero]
  · intro h0
    have h0' : g.seq.data.length = 0 := h0
    show exons g.seq.data = none
    unfold exons
    rw [if_pos h0']

/-- Concrete instance of `exons_maximal_upper_runs`: the doctest example
`"acACGTacgtACGTacgt"` yields the two exons `"ACGT"`, `"ACGT"`, and the
empty sequence yields `none`. -/
theorem exons_maximal_upper_runs_witness :
    (GenomicSequence.mk "q" "i" none "acACGTacgtACGTacgt").exons =
      some [['A', 'C', 'G', 'T'], ['A', 'C', 'G', 'T']] ∧
    (GenomicSequence.mk "q" "i" none "").exons = none := by
  constructor
  · have h := (exons_maximal_upper_runs
      (GenomicSequence.mk "q" "i" none "acACGTacgtACGTacgt")).1 (by decide)
    rw [h]
    decide
  · exact (exons_maximal_upper_runs (GenomicSequence.mk "q" "i" none "")).2 (by decide)

namespace Api

theorem removeKey_perm {id : String} :
    ∀ {reg : Registry} {c : Chan} {reg' : Registry},
      removeKey reg id = some (c, reg') → reg.Perm ((id, c) :: reg') := by
  intro reg
  induction reg with
  | nil => intro c reg' h; simp [removeKey] at h
  | cons p rest ih =>
    intro c reg' h
    obtain ⟨k, c0⟩ := p
    simp only [removeKey] at h
    by_cases hk : k = id
    · rw [if_pos hk] at h
      simp only [Option.some.injEq, Prod.mk.injEq] at h
      obtain ⟨rfl, rfl⟩ := h
      subst hk
      exact List.Perm.refl _
    · rw [if_neg hk] at h
      cases hr : removeKey rest id with
      | none => rw [hr] at h; exact absurd h (by simp)
      | some pr =>
        obtain ⟨c', rest'⟩ := pr
        rw [hr] at h
        simp only [Option.some.injEq, Prod.mk.injEq] at h
        obtain ⟨rfl, rfl⟩ := h
        refine ((ih hr).cons _).trans ?_
        exact List.Perm.swap _ _ _

theorem removeKey_mem {reg : Registry} {id : String} {c : Chan} {reg' : Registry}
    (h : removeKey reg id = some (c, reg')) : (id, c) ∈ reg :=
  (removeKey_perm h).mem_iff.mpr (List.mem_cons_self _ _)

theorem removeKey_isSome_of_mem {reg : Registry} {id : String}
    (h : id ∈ reg.map Prod.fst) : (removeKey reg id).isSome := by
  induction reg with
  | nil => simp at h
  | cons p rest ih =>
    obtain ⟨k, c0⟩ := p
    simp only [removeKey]
    by_cases hk : k = id
    · rw [if_pos hk]; rfl
    · rw [if_neg hk]
      simp only [List.map_cons, List.mem_cons] at h
      rcases h with h | h
      · exact absurd h.symm hk
      · have hs := ih h
        cases hr : removeKey rest id with
        | none => rw [hr] at hs; simp at hs
        | some pr => obtain ⟨c', r'⟩ := pr; rfl

theorem removeKey_eq_none {reg : Registry} {id : String}
    (h : id ∉ reg.map Prod.fst) : removeKey reg id = none := by
  induction reg with
  | nil => rfl
  | cons p rest ih =>
    obtain ⟨k, c0⟩ := p
    simp only [List.map_cons, List.mem_cons, not_or] at h
    obtain ⟨h1, h2⟩ := h
    simp only [removeKey]
    rw [if_neg (fun hk => h1 hk.symm), ih h2]

theorem deliverItems_perm :
    ∀ {items : List Item} {reg : Registry} {sigs : List (Entry × Sig)}
      {reg' : Registry} {sigs' : List (Entry × Sig)},
      deliverItems reg sigs items = some (reg', sigs') →
      (sigs'.map Prod.fst ++ reg').Perm (sigs.map Prod.fst ++ reg) := by
  intro items
  induction items with
  | nil =>
    intro reg sigs reg' sigs' h
    simp only [deliverItems, Option.some.injEq, Prod.mk.injEq] at h
    obtain ⟨rfl, rfl⟩ := h
    exact List.Perm.refl _
  | cons item rest ih =>
    intro reg sigs reg' sigs' h
    simp only [deliverItems] at h
    cases hr : removeKey reg item.input with
    | none => rw [hr] at h; exact absurd h (by simp)
    | some pr =>
      obtain ⟨c, reg0⟩ := pr
      rw [hr] at h
      have hstep := ih h
      have hperm := removeKey_perm hr
      have heq : (sigs ++ [((item.input, c), Sig.ok item)]).map Prod.fst ++ reg0 =
          sigs.map Prod.fst ++ ((item.input, c) :: reg0) := by simp
      rw [heq] at hstep
      exact hstep.trans (List.Perm.append_left _ hperm.symm)

theorem deliverItems_strip :
    ∀ {items : List Item} {reg : Registry} {sigs : List (Entry × Sig)}
      {reg' : Registry} {sigs' : List (Entry × Sig)},
      deliverItems reg sigs items = some (reg', sigs') →
      sigs'.map strip = sigs.map strip ++ items.map fun it => (it.input, Sig.ok it) := by
  intro items
  induction items with
  | nil =>
    intro reg sigs reg' sigs' h
    simp only [deliverItems, Option.some.injEq, Prod.mk.injEq] at h
    obtain ⟨rfl, rfl⟩ := h
    simp
  | cons item rest ih =>
    intro reg sigs reg' sigs' h
    simp only [deliverItems] at h
    cases hr : removeKey reg item.input with
    | none => rw [hr] at h; exact absurd h (by simp)
    | some pr =>
      obtain ⟨c, reg0⟩ := pr
      rw [hr] at h
      rw [ih h]
      simp [strip]

theorem deliverItems_matches :
    ∀ {items : List Item} {reg : Registry} {sigs : List (Entry × Sig)}
      {reg' : Registry} {sigs' : List (Entry × Sig)},
      deliverItems reg sigs items = some (reg', sigs') →
      (∀ p ∈ sigs, sigMatches p) → ∀ p ∈ sigs', sigMatches p := by
  intro items
  induction items with
  | nil =>
    intro reg sigs reg' sigs' h hs
    simp only [deliverItems, Option.some.injEq, Prod.mk.injEq] at h
    obtain ⟨rfl, rfl⟩ := h
    exact hs
  | cons item rest ih =>
    intro reg sigs reg' sigs' h hs
    simp only [deliverItems] at h
    cases hr : removeKey reg item.input with
    | none => rw [hr] at h; exact absurd h (by simp)
    | some pr =>
      obtain ⟨c, reg0⟩ := pr
      rw [hr] at h
      refine ih h ?_
      intro p hp
      rcases List.mem_append.mp hp with hp' | hp'
      · exact hs p hp'
      · rw [List.mem_singleton.mp hp']
        exact rfl

theorem failAll_perm {mk : String → EnsemblError} :
    ∀ {keys : List String} {reg : Registry} {sigs : List (Entry × Sig)}
      {reg' : Registry} {sigs' : List (Entry × Sig)},
      failAll mk reg sigs keys = some (reg', sigs') →
      (sigs'.map Prod.fst ++ reg').Perm (sigs.map Prod.fst ++ reg) := by
  intro keys
  induction keys with
  | nil =>
    intro reg sigs reg' sigs' h
    simp only [failAll, Option.some.injEq, Prod.mk.injEq] at h
    obtain ⟨rfl, rfl⟩ := h
    exact List.Perm.refl _
  | cons id rest ih =>
    intro reg sigs reg' sigs' h
    simp only [failAll] at h
    cases hr : removeKey reg id with
    | none => rw [hr] at h; exact absurd h (by simp)
    | some pr =>
      obtain ⟨c, reg0⟩ := pr
      rw [hr] at h
      have hstep := ih h
      have hperm := removeKey_perm hr
      have heq : (sigs ++ [((id, c), Sig.err (mk id))]).map Prod.fst ++ reg0 =
          sigs.map Prod.fst ++ ((id, c) :: reg0) := by simp
      rw [heq] at hstep
      exact hstep.trans (List.Perm.append_left _ hperm.symm)

theorem failAll_strip {mk : String → EnsemblError} :
    ∀ {keys : List String} {reg : Registry} {sigs : List (Entry × Sig)}
      {reg' : Registry} {sigs' : List (Entry × Sig)},
      failAll mk reg sigs keys = some (reg', sigs') →
      sigs'.map strip = sigs.map strip ++ keys.map fun id => (id, Sig.err (mk id)) := by
  intro keys
  induction keys with
  | nil =>
    intro reg sigs reg' sigs' h
    simp only [failAll, Option.some.injEq, Prod.mk.injEq] at h
    obtain ⟨rfl, rfl⟩ := h
    simp
  | cons id rest ih =>
    intro reg sigs reg' sigs' h
    simp only [failAll] at h
    cases hr : removeKey reg id with
    | none => rw [hr] at h; exact absurd h (by simp)
    | some pr =>
      obtain ⟨c, reg0⟩ := pr
      rw [hr] at h
      rw [ih h]
      simp [strip]

theorem failAll_matches {mk : String → EnsemblError} (hmk : ∀ id, (mk id).input = id) :
    ∀ {keys : List String} {reg : Registry} {sigs : List (Entry × Sig)}
      {reg' : Registry} {sigs' : List (Entry × Sig)},
      failAll mk reg sigs keys = some (reg', sigs') →
      (∀ p ∈ sigs, sigMatches p) → ∀ p ∈ sigs', sigMatches p := by
  intro keys
  induction keys with
  | nil =>
    intro reg sigs reg' sigs' h hs
    simp only [failAll, Option.some.injEq, Prod.mk.injEq] at h
    obtain ⟨rfl, rfl⟩ := h
    exact hs
  | cons id rest ih =>
    intro reg sigs reg' sigs' h hs
    simp only [failAll] at h
    cases hr : removeKey reg id with
    | none => rw [hr] at h; exact absurd h (by simp)
    | some pr =>
      obtain ⟨c, reg0⟩ := pr
      rw [hr] at h
      refine ih h ?_
      intro p hp
      rcases List.mem_append.mp hp with hp' | hp'
      · exact hs p hp'
      · rw [List.mem_singleton.mp hp']
        exact hmk id

theorem deliverItems_isSome_iff :
    ∀ {items : List Item} {reg : Registry} {sigs : List (Entry × Sig)},
      (reg.map Prod.fst).Nodup →
      ((deliverItems reg sigs items).isSome ↔
        ((items.map Item.input).Nodup ∧
          ∀ x ∈ items.map Item.input, x ∈ reg.map Prod.fst)) := by
  intro items
  induction items with
  | nil =>
    intro reg sigs hnd
    simp [deliverItems]
  | cons item rest ih =>
    intro reg sigs hnd
    simp only [deliverItems, List.map_cons]
    cases hr : removeKey reg item.input with
    | none =>
      have hni : item.input ∉ reg.map Prod.fst := by
        intro hmem
        have hs := removeKey_isSome_of_mem hmem
        rw [hr] at hs
        simp at hs
      constructor
      · intro hcon; simp at hcon
      · rintro ⟨-, hall⟩
        exact absurd (hall item.input (List.mem_cons_self _ _)) hni
    | some pr =>
      obtain ⟨c, reg0⟩ := pr
      have hperm : reg.Perm ((item.input, c) :: reg0) := removeKey_perm hr
      have hkeysperm : (reg.map Prod.fst).Perm (item.input :: reg0.map Prod.fst) := by
        simpa using hperm.map Prod.fst
      have hnd2 : (item.input :: reg0.map Prod.fst).Nodup :=
        hkeysperm.nodup_iff.mp hnd
      obtain ⟨hnotin, hnd0⟩ := List.nodup_cons.mp hnd2
      rw [ih hnd0]
      constructor
      · rintro ⟨hndrest, hsub⟩
        refine ⟨List.nodup_cons.mpr ⟨?_, hndrest⟩, ?_⟩
        · intro hmem
          exact hnotin (hsub _ hmem)
        · intro x hx
          rcases List.mem_cons.mp hx with rfl | hx'
          · exact hkeysperm.mem_iff.mpr (List.mem_cons_self _ _)
          · exact hkeysperm.mem_iff.mpr (List.mem_cons_of_mem _ (hsub _ hx'))
      · rintro ⟨hndcons, hall⟩
        obtain ⟨hnotin2, hndrest⟩ := List.nodup_cons.mp hndcons
        refine ⟨hndrest, ?_⟩
        intro x hx
        have hx2 := hall x (List.mem_cons_of_mem _ hx)
        rcases List.mem_cons.mp (hkeysperm.mem_iff.mp hx2) with rfl | hx3
        · exact absurd hx hnotin2
        · exact hx3

theorem deliverBranch_done {st : DispatchState} {items : List Item}
    {st' : DispatchState} (h : deliverBranch st items = DOut.done st') :
    deliverItems st.reg st.signals items = some (st'.reg, st'.signals) ∧
    st'.sleeps = st.sleeps ∧ st'.calls = st.calls ∧ st'.surfaced = st.surfaced := by
  unfold deliverBranch at h
  cases hm : deliverItems st.reg st.signals items with
  | none => rw [hm] at h; exact absurd h (by simp)
  | some pr =>
    obtain ⟨reg', sigs'⟩ := pr
    rw [hm] at h
    simp only [DOut.done.injEq] at h
    subst h
    exact ⟨rfl, rfl, rfl, rfl⟩

theorem deliverBranch_eq_panic {st : DispatchState} {items : List Item}
    (h : deliverItems st.reg st.signals items = none) :
    deliverBranch st items = DOut.panic unwrapNoneMsg := by
  unfold deliverBranch
  rw [h]

theorem failBranch_done {st : DispatchState} {keys : List String}
    {mk : String → EnsemblError} {pause : Option Nat} {st' : DispatchState}
    (h : failBranch st keys mk pause = DOut.done st') :
    failAll mk st.reg st.signals keys = some (st'.reg, st'.signals) ∧
    st'.sleeps = st.sleeps ++ pause.toList ∧ st'.calls = st.calls ∧
    st'.surfaced = st.surfaced := by
  unfold failBranch at h
  cases hm : failAll mk st.reg st.signals keys with
  | none => rw [hm] at h; exact absurd h (by simp)
  | some pr =>
    obtain ⟨reg', sigs'⟩ := pr
    rw [hm] at h
    simp only [DOut.done.injEq] at h
    subst h
    exact ⟨rfl, rfl, rfl, rfl⟩

theorem deliverBranch_master {st0 st : DispatchState} {keys : List String}
    {items : List Item} {st' : DispatchState}
    (hreg : st0.reg = st.reg) (hsig : st0.signals = st.signals)
    (hcalls : st0.calls = st.calls ++ [keys])
    (h : deliverBranch st0 items = DOut.done st') :
    (st'.signals.map Prod.fst ++ st'.reg).Perm (st.signals.map Prod.fst ++ st.reg) ∧
    st'.calls = st.calls ++ [keys] ∧
    ((∀ p ∈ st.signals, sigMatches p) → ∀ p ∈ st'.signals, sigMatches p) := by
  obtain ⟨hdel, hsl, hcl, hsf⟩ := deliverBranch_done h
  rw [hreg, hsig] at hdel
  refine ⟨deliverItems_perm hdel, by rw [hcl, hcalls], ?_⟩
  intro hs
  exact deliverItems_matches hdel hs

theorem failBranch_master {st0 st : DispatchState} {keys : List String}
    {mk : String → EnsemblError} {pause : Option Nat} {st' : DispatchState}
    (hreg : st0.reg = st.reg) (hsig : st0.signals = st.signals)
    (hcalls : st0.calls = st.calls ++ [keys])
    (hmk : ∀ id, (mk id).input = id)
    (h : failBranch st0 keys mk pause = DOut.done st') :
    (st'.signals.map Prod.fst ++ st'.reg).Perm (st.signals.map Prod.fst ++ st.reg) ∧
    st'.calls = st.calls ++ [keys] ∧
    ((∀ p ∈ st.signals, sigMatches p) → ∀ p ∈ st'.signals, sigMatches p) := by
  obtain ⟨hfa, hsl, hcl, hsf⟩ := failBranch_done h
  rw [hreg, hsig] at hfa
  refine ⟨failAll_perm hfa, by rw [hcl, hcalls], ?_⟩
  intro hs
  exact failAll_matches hmk hfa hs

theorem processSub_done {st : DispatchState} {keys : List String} {r : Response}
    {st' : DispatchState} (h : processSub st keys r = DOut.done st') :
    (st'.signals.map Prod.fst ++ st'.reg).Perm (st.signals.map Prod.fst ++ st.reg) ∧
    st'.calls = st.calls ++ [keys] ∧
    ((∀ p ∈ st.signals, sigMatches p) → ∀ p ∈ st'.signals, sigMatches p) := by
  simp only [processSub] at h
  by_cases h200 : r.status = 200
  · rw [if_pos h200] at h
    cases hlp : r.listParse with
    | ok items =>
      rw [hlp] at h
      refine deliverBranch_master ?_ ?_ ?_ h <;> rfl
    | fail msg =>
      rw [hlp] at h
      simp only at h
      cases hop : r.objParse with
      | some items =>
        rw [hop] at h
        by_cases hmsg : msg = mapErrMsg
        · rw [if_pos hmsg] at h
          refine deliverBranch_master ?_ ?_ ?_ h <;> rfl
        · rw [if_neg hmsg] at h
          refine deliverBranch_master ?_ ?_ ?_ h <;> rfl
      | none =>
        rw [hop] at h
        exact absurd h (by simp)
  · rw [if_neg h200] at h
    by_cases h400 : r.status = 400
    · rw [if_pos h400] at h
      refine failBranch_master ?_ ?_ ?_ ?_ h <;> first | rfl | exact fun id => rfl
    · rw [if_neg h400] at h
      by_cases h403 : r.status = 403
      · rw [if_pos h403] at h
        refine failBranch_master ?_ ?_ ?_ ?_ h <;> first | rfl | exact fun id => rfl
      · rw [if_neg h403] at h
        by_cases h404 : r.status = 404
        · rw [if_pos h404] at h
          refine failBranch_master ?_ ?_ ?_ ?_ h <;> first | rfl | exact fun id => rfl
        · rw [if_neg h404] at h
          by_cases h408 : r.status = 408
          · rw [if_pos h408] at h
            refine failBranch_master ?_ ?_ ?_ ?_ h <;> first | rfl | exact fun id => rfl
          · rw [if_neg h408] at h
            by_cases h429 : r.status = 429
            · rw [if_pos h429] at h
              refine failBranch_master ?_ ?_ ?_ ?_ h <;> first | rfl | exact fun id => rfl
            · rw [if_neg h429] at h
              by_cases h502 : r.status = 502
              · rw [if_pos h502] at h
                refine failBranch_master ?_ ?_ ?_ ?_ h <;> first | rfl | exact fun id => rfl
              · rw [if_neg h502] at h
                by_cases h503 : r.status = 503
                · rw [if_pos h503] at h
                  refine failBranch_master ?_ ?_ ?_ ?_ h <;> first | rfl | exact fun id => rfl
                · rw [if_neg h503] at h
                  refine failBranch_master ?_ ?_ ?_ ?_ h <;> first | rfl | exact fun id => rfl

theorem processSubs_done :
    ∀ {cks : List (List String)} {rs : List Response} {st st' : DispatchState},
      processSubs st cks rs = DOut.done st' →
      (st'.signals.map Prod.fst ++ st'.reg).Perm (st.signals.map Prod.fst ++ st.reg) ∧
      st'.calls = st.calls ++ cks ∧
      ((∀ p ∈ st.signals, sigMatches p) → ∀ p ∈ st'.signals, sigMatches p) := by
  intro cks
  induction cks with
  | nil =>
    intro rs st st' h
    simp only [processSubs, DOut.done.injEq] at h
    subst h
    exact ⟨List.Perm.refl _, by simp, fun hs => hs⟩
  | cons keys rest ih =>
    intro rs st st' h
    cases rs with
    | nil => simp [processSubs] at h
    | cons r restR =>
      simp only [processSubs] at h
      cases hps : processSub st keys r with
      | panic m => rw [hps] at h; exact absurd h (by simp)
      | done st1 =>
        rw [hps] at h
        obtain ⟨hp1, hc1, hm1⟩ := processSub_done hps
        obtain ⟨hp2, hc2, hm2⟩ := ih h
        refine ⟨hp2.trans hp1, ?_, fun hs => hm2 (hm1 hs)⟩
        rw [hc2, hc1]
        simp

theorem finalDrain_map_fst (reg : Registry) :
    (finalDrain reg).map Prod.fst = reg := by
  unfold finalDrain
  rw [List.map_map]
  have hc : (Prod.fst ∘ fun p : Entry => ((p.1, p.2), Sig.err (noResultError p.1))) = id := by
    funext p
    rfl
  rw [hc, List.map_id]

theorem process_done_spec {m : Nat} {reg : Registry} {rs : List Response}
    {res : ProcessResult} (h : process m reg rs = POut.done res) :
    ((res.signals ++ res.late).map Prod.fst).Perm reg ∧
    res.calls = chunks m (reg.map Prod.fst) ∧
    (∀ p ∈ res.signals ++ res.late, sigMatches p) ∧
    (∀ p ∈ res.late, p.2 = Sig.err (noResultError p.1.1)) := by
  unfold process at h
  by_cases hreg : reg.isEmpty
  · rw [if_pos hreg] at h
    have hnil : reg = [] := by
      cases reg with
      | nil => rfl
      | cons p l => simp [List.isEmpty] at hreg
    subst hnil
    simp only [POut.done.injEq] at h
    subst h
    exact ⟨List.Perm.refl _, rfl, by simp, by simp⟩
  · rw [if_neg hreg] at h
    cases hps : processSubs (initState reg) (chunks m (reg.map Prod.fst)) rs with
    | panic m => rw [hps] at h; exact absurd h (by simp)
    | done st =>
      rw [hps] at h
      simp only [POut.done.injEq] at h
      subst h
      obtain ⟨hperm, hcalls, hmat⟩ := processSubs_done hps
      simp only [initState, List.map_nil, List.nil_append] at hperm hcalls
      refine ⟨?_, hcalls, ?_, ?_⟩
      · rw [List.map_append, finalDrain_map_fst]
        exact hperm
      · intro p hp
        rcases List.mem_append.mp hp with hp' | hp'
        · exact hmat (by intro q hq; simp [initState] at hq) p hp'
        · simp only [finalDrain, List.mem_map] at hp'
          obtain ⟨q, hq, rfl⟩ := hp'
          exact rfl
      · intro p hp
        simp only [finalDrain, List.mem_map] at hp
        obtain ⟨q, hq, rfl⟩ := hp
        rfl

theorem chunksF_length (m : Nat) (hm : 1 ≤ m) :
    ∀ (fuel : Nat) (l : List String), l.length ≤ fuel →
      (chunksF m fuel l).length = (l.length + m - 1) / m := by
  intro fuel
  induction fuel with
  | zero =>
    intro l hf
    have hnil : l = [] := List.eq_nil_of_length_eq_zero (by omega)
    subst hnil
    simp only [chunksF, List.length_nil]
    exact (Nat.div_eq_of_lt (by omega)).symm
  | succ n ih =>
    intro l hf
    cases l with
    | nil =>
      simp only [chunksF, List.length_nil]
      exact (Nat.div_eq_of_lt (by omega)).symm
    | cons x xs =>
      have hlen2 : ((x :: xs).drop m).length ≤ n := by
        rw [List.length_drop]
        simp only [List.length_cons] at hf ⊢
        omega
      simp only [chunksF, List.length_cons]
      rw [ih _ hlen2, List.length_drop]
      simp only [List.length_cons]
      have h1 : (xs.length + 1 - m + m - 1) / m = xs.length / m := by
        rcases le_or_lt m (xs.length + 1) with hle | hlt
        · congr 1
          omega
        · rw [Nat.div_eq_of_lt (by omega), Nat.div_eq_of_lt (by omega)]
      have h2 : xs.length + 1 + m - 1 = xs.length + m := by omega
      rw [h1, h2, Nat.add_div_right _ (by omega)]

theorem chunks_length (m : Nat) (hm : 1 ≤ m) (l : List String) :
    (chunks m l).length = (l.length + m - 1) / m :=
  chunksF_length m hm l.length l (Nat.le_refl _)

theorem chunksF_sizes (m : Nat) :
    ∀ (fuel : Nat) (l : List String), ∀ c ∈ chunksF m fuel l, c.length ≤ m := by
  intro fuel
  induction fuel with
  | zero =>
    intro l c hc
    cases l <;> simp [chunksF] at hc
  | succ n ih =>
    intro l c hc
    cases l with
    | nil => simp [chunksF] at hc
    | cons x xs =>
      simp only [chunksF, List.mem_cons] at hc
      rcases hc with rfl | hc
      · rw [List.length_take]
        exact Nat.min_le_left _ _
      · exact ih _ c hc

theorem getLoop_attempts (id : String) :
    ∀ (recvs : List Recv) (retries : Nat), retries ≤ 2 →
      ∀ (r : GetResult), getLoop id recvs retries = some r →
        r.attempts + retries ≤ 3 := by
  intro recvs
  induction recvs with
  | nil => intro retries hle r h; simp [getLoop] at h
  | cons rc rest ih =>
    intro retries hle r h
    cases rc with
    | ok t =>
      simp only [getLoop, Option.some.injEq] at h
      subst h
      simp only
      omega
    | err e =>
      simp only [getLoop] at h
      by_cases hc : retries + 1 < 3 ∧ e.status_code ∈ retryableStatuses
      · rw [if_pos hc] at h
        cases hg : getLoop id rest (retries + 1) with
        | none => rw [hg] at h; simp at h
        | some r0 =>
          rw [hg] at h
          simp only [Option.some.injEq] at h
          subst h
          have hrec := ih (retries + 1) (by omega) r0 hg
          simp only
          omega
      · rw [if_neg hc] at h
        simp only [Option.some.injEq] at h
        subst h
        simp only
        omega
    | closed msg =>
      simp only [getLoop, Option.some.injEq] at h
      subst h
      simp only
      omega

theorem getLoop_err_retry {id : String} {e : EnsemblError} {rest : List Recv}
    {retries : Nat} (hc : retries + 1 < 3 ∧ e.status_code ∈ retryableStatuses) :
    getLoop id (Recv.err e :: rest) retries =
      (getLoop id rest (retries + 1)).map
        fun r => { r with attempts := r.attempts + 1 } := by
  simp only [getLoop, if_pos hc]
  cases getLoop id rest (retries + 1) <;> rfl

theorem getLoop_err_stop {id : String} {e : EnsemblError} {rest : List Recv}
    {retries : Nat} (hc : ¬(retries + 1 < 3 ∧ e.status_code ∈ retryableStatuses)) :
    getLoop id (Recv.err e :: rest) retries =
      some ⟨Except.error e, retries + 1, 1⟩ := by
  simp only [getLoop, if_neg hc]

theorem hmInsert_keys_nodup {m : Registry} {k : String} {c : Chan}
    (h : (m.map Prod.fst).Nodup) : ((hmInsert m k c).map Prod.fst).Nodup := by
  unfold hmInsert
  rw [List.map_append]
  apply List.Nodup.append
  · exact ((List.filter_sublist m).map Prod.fst).nodup h
  · simp
  · intro x hx hxk
    simp only [List.map_cons, List.map_nil, List.mem_singleton] at hxk
    subst hxk
    obtain ⟨p, hp, rfl⟩ := List.mem_map.mp hx
    obtain ⟨hpm, hpk⟩ := List.mem_filter.mp hp
    simp only [Bool.not_eq_eq_eq_not, Bool.not_true, beq_eq_false_iff_ne] at hpk
    exact hpk rfl

theorem insertAll_keys_nodup (pairs : List Entry) :
    ((insertAll pairs).map Prod.fst).Nodup := by
  induction pairs using List.reverseRecOn with
  | nil => simp [insertAll]
  | append_singleton ps p ih =>
    show ((List.foldl (fun m q => hmInsert m q.1 q.2) [] (ps ++ [p])).map Prod.fst).Nodup
    rw [List.foldl_append]
    simp only [List.foldl_cons, List.foldl_nil]
    exact hmInsert_keys_nodup ih

theorem lookup_cons_eq {l : List Entry} {a k : String} {b : Chan} (h : k = a) :
    ((a, b) :: l).lookup k = some b := by
  subst h
  simp [List.lookup]

theorem lookup_cons_ne {l : List Entry} {a k : String} {b : Chan} (h : ¬k = a) :
    ((a, b) :: l).lookup k = l.lookup k := by
  have hb : (k == a) = false := beq_eq_false_iff_ne.mpr h
  simp [List.lookup, hb]

theorem hmInsert_lookup (m : Registry) (k : String) (c : Chan) (k' : String) :
    (hmInsert m k c).lookup k' = if k' = k then some c else m.lookup k' := by
  unfold hmInsert
  induction m with
  | nil =>
    simp only [List.filter_nil, List.nil_append]
    by_cases hk : k' = k
    · rw [if_pos hk, lookup_cons_eq hk]
    · rw [if_neg hk, lookup_cons_ne hk]
  | cons p rest ih =>
    obtain ⟨a, b⟩ := p
    simp only [List.filter_cons]
    by_cases hak : a = k
    · have hb : (a == k) = true := beq_iff_eq.mpr hak
      rw [if_neg (by rw [hb]; simp)]
      rw [ih]
      by_cases hk : k' = k
      · rw [if_pos hk, if_pos hk]
      · have hclem : ((a, b) :: rest).lookup k' = rest.lookup k' :=
          lookup_cons_ne fun hcon => hk (hcon.trans hak)
        rw [if_neg hk, if_neg hk, hclem]
    · have hb : (a == k) = false := beq_eq_false_iff_ne.mpr hak
      rw [if_pos (by rw [hb]; rfl), List.cons_append]
      by_cases hka : k' = a
      · have hkk : ¬k' = k := by
          intro hcon
          exact hak (hka.symm.trans hcon)
        rw [lookup_cons_eq hka, if_neg hkk, lookup_cons_eq hka]
      · rw [lookup_cons_ne hka, ih]
        have hclem : ((a, b) :: rest).lookup k' = rest.lookup k' :=
          lookup_cons_ne hka
        rw [hclem]

theorem insertAll_lookup (pairs : List Entry) (k : String) :
    (insertAll pairs).lookup k = pairs.reverse.lookup k := by
  induction pairs using List.reverseRecOn with
  | nil => rfl
  | append_singleton ps p ih =>
    obtain ⟨a, b⟩ := p
    show (List.foldl (fun m q => hmInsert m q.1 q.2) [] (ps ++ [(a, b)])).lookup k = _
    rw [List.foldl_append]
    simp only [List.foldl_cons, List.foldl_nil]
    rw [hmInsert_lookup, List.reverse_append]
    simp only [List.reverse_cons, List.reverse_nil, List.nil_append, List.cons_append]
    by_cases hk : k = a
    · rw [if_pos hk, lookup_cons_eq hk]
    · rw [if_neg hk, lookup_cons_ne hk]
      exact ih

theorem lookup_eq_of_mem_nodup {m : Registry} {k : String} {c : Chan}
    (hnd : (m.map Prod.fst).Nodup) (hmem : (k, c) ∈ m) : m.lookup k = some c := by
  induction m with
  | nil => simp at hmem
  | cons p rest ih =>
    obtain ⟨a, b⟩ := p
    simp only [List.map_cons, List.nodup_cons] at hnd
    obtain ⟨hna, hnd'⟩ := hnd
    rcases List.mem_cons.mp hmem with heq | hmem'
    · obtain ⟨rfl, rfl⟩ := Prod.mk.injEq .. |>.mp heq
      exact lookup_cons_eq rfl
    · have hk : k ∈ rest.map Prod.fst := List.mem_map.mpr ⟨(k, c), hmem', rfl⟩
      have hka : ¬k = a := by
        intro hcon
        subst hcon
        exact hna hk
      rw [lookup_cons_ne hka]
      exact ih hnd' hmem'

/-- C1: whenever `Getter::process` completes on a batch, every pending
request of the batch is removed from the registry and signaled exactly once:
the signaled (identifier, channel) pairs are a permutation of the input
registry, every signal carries either a result item whose extracted key is
its channel's identifier or an error naming that identifier, and the
requests signaled by the final drain carry the "did not give results" error.
No pending request is dropped without a signal. -/
theorem process_signals_each_request_exactly_once
    (m : Nat) (reg : Registry) (rs : List Response) (res : ProcessResult)
    (h : process m reg rs = POut.done res) :
    ((res.signals ++ res.late).map Prod.fst).Perm reg ∧
    (∀ p ∈ res.signals ++ res.late, sigMatches p) ∧
    (∀ p ∈ res.late, p.2 = Sig.err (noResultError p.1.1)) := by
  obtain ⟨h1, -, h3, h4⟩ := process_done_spec h
  exact ⟨h1, h3, h4⟩

/-- Concrete instance of `process_signals_each_request_exactly_once`: a
two-request window whose 200 response answers only `"b"`. -/
theorem process_signals_each_request_exactly_once_witness :
    (((processOrEmpty 50 regW1 rsW1).signals ++
        (processOrEmpty 50 regW1 rsW1).late).map Prod.fst).Perm regW1 ∧
    (∀ p ∈ (processOrEmpty 50 regW1 rsW1).signals ++
        (processOrEmpty 50 regW1 rsW1).late, sigMatches p) ∧
    (∀ p ∈ (processOrEmpty 50 regW1 rsW1).late,
      p.2 = Sig.err (noResultError p.1.1)) :=
  process_signals_each_request_exactly_once 50 regW1 rsW1
    (processOrEmpty 50 regW1 rsW1) rfl

/-- C2: for an endpoint with `max_post_size() = m` (any `m ≥ 1`; the trait
default is 50, `VEPAnalysis`/`VEPResult` override it to 200 and `Transcript`
to 1000), a completed run issues as POST calls exactly the sub-batches of
the drained key list: `⌈n / m⌉` calls, each carrying at most `m`
identifiers, and an empty batch issues no call at all. -/
theorem process_call_counts (m : Nat) (reg : Registry) (rs : List Response)
    (res : ProcessResult) (hm : 1 ≤ m) (h : process m reg rs = POut.done res) :
    res.calls = chunks m (reg.map Prod.fst) ∧
    res.calls.length = (reg.length + m - 1) / m ∧
    (∀ c ∈ res.calls, c.length ≤ m) ∧
    (reg = [] → res.calls = []) ∧
    default_max_post_size = 50 := by
  obtain ⟨-, hcalls, -, -⟩ := process_done_spec h
  refine ⟨hcalls, ?_, ?_, ?_, rfl⟩
  · rw [hcalls, chunks_length m hm, List.length_map]
  · intro c hc
    rw [hcalls] at hc
    exact chunksF_sizes m _ _ c hc
  · intro hnil
    subst hnil
    rw [hcalls]
    rfl

set_option maxRecDepth 100000 in
/-- Concrete instance of `process_call_counts`: 120 identifiers give exactly
3 calls of sizes 50, 50, 20 at the default batch size 50, and a single call
of 120 at the VEP endpoints' batch size 200. -/
theorem process_call_counts_witness :
    regW2.length = 120 ∧
    (processOrEmpty 50 regW2 rsW2).calls.length = 3 ∧
    (processOrEmpty 50 regW2 rsW2).calls.map List.length = [50, 50, 20] ∧
    (processOrEmpty vep_max_post_size regW2 rsW2).calls.map List.length = [120] := by
  have h := process_call_counts 50 regW2 rsW2 (processOrEmpty 50 regW2 rsW2)
    (by omega) rfl
  have hv := process_call_counts vep_max_post_size regW2 rsW2
    (processOrEmpty vep_max_post_size regW2 rsW2) (by decide) rfl
  refine ⟨by rfl, ?_, ?_, ?_⟩
  · rw [h.2.1]
    rfl
  · rw [h.1]
    rfl
  · rw [hv.1]
    rfl

/-- C4: on a completed run, any pending request whose identifier was sent
but received no sub-batch signal (it was absent from the parsed results of
its 200 response and was not failed by an error-status branch) is signaled
by the final drain with the "did not give results" error, whose status code
404 is outside the retryable set and whose message says the input gave no
results and to check its formatting. -/
theorem process_absent_id_no_result (m : Nat) (reg : Registry)
    (rs : List Response) (res : ProcessResult) (id : String) (c : Chan)
    (h : process m reg rs = POut.done res)
    (hmem : (id, c) ∈ reg)
    (habs : (id, c) ∉ res.signals.map Prod.fst) :
    ((id, c), Sig.err (noResultError id)) ∈ res.late ∧
    (noResultError id).status_code = 404 ∧
    (noResultError id).status_code ∉ retryableStatuses ∧
    (noResultError id).error =
      s!"The input {id} did not give results, usually this means that it is not formated correctly." := by
  obtain ⟨hperm, -, -, hlate⟩ := process_done_spec h
  have hin : (id, c) ∈ (res.signals ++ res.late).map Prod.fst :=
    hperm.mem_iff.mpr hmem
  rw [List.map_append, List.mem_append] at hin
  rcases hin with hin | hin
  · exact absurd hin habs
  · refine ⟨?_, rfl, by simp [noResultError, retryableStatuses], rfl⟩
    obtain ⟨p, hp, hfst⟩ := List.mem_map.mp hin
    have hp2 := hlate p hp
    obtain ⟨pe, ps⟩ := p
    simp only at hfst hp2
    subst hfst
    simp only at hp2
    subst hp2
    exact hp

/-- Concrete instance of `process_absent_id_no_result`: `"a"` is sent but
absent from the 200 response, so its channel gets the no-result failure. -/
theorem process_absent_id_no_result_witness :
    (("a", 0), Sig.err (noResultError "a")) ∈ (processOrEmpty 50 regW4 rsW4).late ∧
    (noResultError "a").status_code = 404 ∧
    (noResultError "a").status_code ∉ retryableStatuses ∧
    (noResultError "a").error =
      "The input a did not give results, usually this means that it is not formated correctly." := by
  have h := process_absent_id_no_result 50 regW4 rsW4
    (processOrEmpty 50 regW4 rsW4) "a" 0 rfl (by decide) (by decide)
  exact h

/-- C5: on a 200 response, a successful list parse delivers the parsed items
with no error surfaced; a failed list parse falls back to the keyed-object
parse and delivers its items, surfacing the list-parse error exactly when
its message differs from the body-is-an-object serde message; a body that
parses as neither shape is fatal for the whole sub-batch — the dispatcher
panics with a "failed to parse" message instead of sending per-identifier
signals. -/
theorem process_parse_fallback (st : DispatchState) (keys : List String)
    (r : Response) (h200 : r.status = 200) :
    (∀ items st', r.listParse = ListParse.ok items →
      processSub st keys r = DOut.done st' →
      st'.surfaced = st.surfaced ∧
      st'.signals.map strip =
        st.signals.map strip ++ items.map fun it => (it.input, Sig.ok it)) ∧
    (∀ msg items st', r.listParse = ListParse.fail msg → r.objParse = some items →
      processSub st keys r = DOut.done st' →
      (st'.signals.map strip =
        st.signals.map strip ++ items.map fun it => (it.input, Sig.ok it)) ∧
      (st'.surfaced = st.surfaced ↔ msg = mapErrMsg)) ∧
    (∀ msg, r.listParse = ListParse.fail msg → r.objParse = none →
      processSub st keys r =
        DOut.panic ("Failed to parse the following response: " ++ r.bodyText)) := by
  refine ⟨?_, ?_, ?_⟩
  · intro items st' hlp h
    simp only [processSub, if_pos h200] at h
    rw [hlp] at h
    obtain ⟨hdel, -, -, hsurf⟩ := deliverBranch_done h
    exact ⟨hsurf, deliverItems_strip hdel⟩
  · intro msg items st' hlp hop h
    simp only [processSub, if_pos h200] at h
    rw [hlp] at h
    simp only at h
    rw [hop] at h
    by_cases hmsg : msg = mapErrMsg
    · rw [if_pos hmsg] at h
      obtain ⟨hdel, -, -, hsurf⟩ := deliverBranch_done h
      refine ⟨deliverItems_strip hdel, ?_⟩
      constructor
      · intro _; exact hmsg
      · intro _; exact hsurf
    · rw [if_neg hmsg] at h
      obtain ⟨hdel, -, -, hsurf⟩ := deliverBranch_done h
      refine ⟨deliverItems_strip hdel, ?_⟩
      constructor
      · intro hcon
        rw [hsurf] at hcon
        have hlen := congrArg List.length hcon
        rw [List.length_append] at hlen
        simp at hlen
      · intro hcon
        exact absurd hcon hmsg
  · intro msg hlp hop
    simp only [processSub, if_pos h200]
    rw [hlp]
    simp only
    rw [hop]

/-- Concrete instance of `process_parse_fallback`: the list parse fails with
the body-is-an-object message, the keyed-object fallback delivers the item,
and nothing is surfaced. -/
theorem process_parse_fallback_witness :
    ((processSubOr stW5 ["a"] rW5).signals.map strip =
      [("a", Sig.ok ⟨"a", 3⟩)]) ∧
    ((processSubOr stW5 ["a"] rW5).surfaced = stW5.surfaced ↔
      mapErrMsg = mapErrMsg) := by
  have h := (process_parse_fallback stW5 ["a"] rW5 rfl).2.1 mapErrMsg [⟨"a", 3⟩]
    (processSubOr stW5 ["a"] rW5) rfl rfl rfl
  exact h

/-- C7: when a sub-batch call returns status 429, every identifier of the
sub-batch is signaled a status-429 failure whose message cites the
reset-seconds value `N` parsed from the `X-RateLimit-Reset` header
(`N = 60` when the header is absent or unparseable), the dispatcher then
sleeps exactly `N` seconds, and 429 is in the facade's retryable set. -/
theorem process_429_rate_limit (st : DispatchState) (keys : List String)
    (r : Response) (st' : DispatchState) (N : Nat) (h429 : r.status = 429)
    (hN : N = r.rateReset.getD 60)
    (h : processSub st keys r = DOut.done st') :
    st'.sleeps = st.sleeps ++ [N] ∧
    st'.signals.map strip =
      st.signals.map strip ++ keys.map (fun id => (id, Sig.err (err429 N id))) ∧
    (∀ id, (err429 N id).status_code = 429 ∧
      (err429 N id).error = s!"Too Many Requests: Rate limit resets in {N} seconds.") ∧
    (429 : Int) ∈ retryableStatuses ∧
    (r.rateReset = none → N = 60) := by
  subst hN
  simp only [processSub] at h
  rw [if_neg (by rw [h429]; decide)] at h
  rw [if_neg (by rw [h429]; decide)] at h
  rw [if_neg (by rw [h429]; decide)] at h
  rw [if_neg (by rw [h429]; decide)] at h
  rw [if_neg (by rw [h429]; decide)] at h
  rw [if_pos h429] at h
  obtain ⟨hfa, hsl, -, -⟩ := failBranch_done h
  refine ⟨hsl, failAll_strip hfa, fun id => ⟨rfl, rfl⟩, by decide, fun hr => by rw [hr]; rfl⟩

/-- Concrete instance of `process_429_rate_limit`: a 429 response with a
reset header of 17 seconds fails both identifiers with messages citing 17
and sleeps 17 seconds. -/
theorem process_429_rate_limit_witness :
    (processSubOr stW7 ["a", "b"] rW7).sleeps = [17] ∧
    (processSubOr stW7 ["a", "b"] rW7).signals.map strip =
      [("a", Sig.err (err429 17 "a")), ("b", Sig.err (err429 17 "b"))] ∧
    (err429 17 "a").error = "Too Many Requests: Rate limit resets in 17 seconds." ∧
    (429 : Int) ∈ retryableStatuses := by
  have h := process_429_rate_limit stW7 ["a", "b"] rW7
    (processSubOr stW7 ["a", "b"] rW7) 17 rfl rfl rfl
  exact ⟨h.1, h.2.1, (h.2.2.1 "a").2, h.2.2.2.1⟩

/-- C8: if a 200 response parses as a list but contains an item whose
extracted key is not among the still-pending identifiers — an unknown key,
or the same key appearing twice — `Getter::process` panics on the failed
registry removal's `unwrap` instead of completing and delivering signals. -/
theorem process_unknown_key_panics (st : DispatchState) (keys : List String)
    (r : Response) (items : List Item)
    (h200 : r.status = 200) (hlp : r.listParse = ListParse.ok items)
    (hnd : (st.reg.map Prod.fst).Nodup)
    (hbad : ¬((items.map Item.input).Nodup ∧
      ∀ x ∈ items.map Item.input, x ∈ st.reg.map Prod.fst)) :
    processSub st keys r = DOut.panic unwrapNoneMsg := by
  have hnone : deliverItems st.reg st.signals items = none := by
    cases hd : deliverItems st.reg st.signals items with
    | none => rfl
    | some pr =>
      exact absurd ((deliverItems_isSome_iff hnd).mp (by rw [hd]; rfl)) hbad
  simp only [processSub, if_pos h200]
  rw [hlp]
  exact deliverBranch_eq_panic hnone

/-- Concrete instance of `process_unknown_key_panics`: a 200 response whose
item list carries the key `"a"` twice makes the dispatcher panic. -/
theorem process_unknown_key_panics_witness :
    processSub stW8 ["a"] rW8 = DOut.panic unwrapNoneMsg :=
  process_unknown_key_panics stW8 ["a"] rW8 [⟨"a", 1⟩, ⟨"a", 2⟩]
    rfl rfl (by decide) (by decide)

/-- C3: `Client::get` re-submits exactly when the received failure's status
is in {403, 408, 429, 502, 503} and the retry counter, after counting the
failure, is still below 3; otherwise it returns the failure.  It never
consumes more than 3 channel receives.  For the failure/success sequence
[429, 429, 200] it returns the item after exactly 2 retries having made 3
submissions; for four queued 429 failures it returns the third failure with
the counter at the bound 3, never making a 4th submission. -/
theorem client_get_retry_policy (id : String) :
    (∀ recvs r, clientGet id recvs = some r → r.attempts ≤ 3) ∧
    (∀ e rest retries,
      (retries + 1 < 3 ∧ e.status_code ∈ retryableStatuses →
        getLoop id (Recv.err e :: rest) retries =
          (getLoop id rest (retries + 1)).map
            fun r => { r with attempts := r.attempts + 1 }) ∧
      (¬(retries + 1 < 3 ∧ e.status_code ∈ retryableStatuses) →
        getLoop id (Recv.err e :: rest) retries =
          some ⟨Except.error e, retries + 1, 1⟩)) ∧
    (∀ e1 e2 t rest, e1.status_code = 429 → e2.status_code = 429 →
      clientGet id (Recv.err e1 :: Recv.err e2 :: Recv.ok t :: rest) =
        some ⟨Except.ok t, 2, 3⟩) ∧
    (∀ e1 e2 e3 e4 rest,
      e1.status_code = 429 → e2.status_code = 429 → e3.status_code = 429 →
      e4.status_code = 429 →
      clientGet id (Recv.err e1 :: Recv.err e2 :: Recv.err e3 ::
          Recv.err e4 :: rest) =
        some ⟨Except.error e3, 3, 3⟩) := by
  refine ⟨?_, ?_, ?_, ?_⟩
  · intro recvs r h
    have hb := getLoop_attempts id recvs 0 (by omega) r h
    omega
  · intro e rest retries
    exact ⟨fun hc => getLoop_err_retry hc, fun hc => getLoop_err_stop hc⟩
  · intro e1 e2 t rest h1 h2
    have m1 : e1.status_code ∈ retryableStatuses := by rw [h1]; decide
    have m2 : e2.status_code ∈ retryableStatuses := by rw [h2]; decide
    show getLoop id _ 0 = _
    rw [getLoop_err_retry ⟨by omega, m1⟩, getLoop_err_retry ⟨by omega, m2⟩]
    rfl
  · intro e1 e2 e3 e4 rest h1 h2 h3 h4
    have m1 : e1.status_code ∈ retryableStatuses := by rw [h1]; decide
    have m2 : e2.status_code ∈ retryableStatuses := by rw [h2]; decide
    show getLoop id _ 0 = _
    rw [getLoop_err_retry ⟨by omega, m1⟩, getLoop_err_retry ⟨by omega, m2⟩,
      getLoop_err_stop (fun hc => by omega)]
    rfl

/-- Concrete instance of `client_get_retry_policy`: two 429 failures then a
success give the item with 2 retries and 3 submissions; four 429 failures
give the third failure with the counter at 3 and only 3 receives consumed. -/
theorem client_get_retry_policy_witness :
    clientGet "x" [Recv.err ⟨429, "x", "m"⟩, Recv.err ⟨429, "x", "m"⟩,
        Recv.ok ⟨"x", 5⟩] = some ⟨Except.ok ⟨"x", 5⟩, 2, 3⟩ ∧
    clientGet "x" [Recv.err ⟨429, "x", "m1"⟩, Recv.err ⟨429, "x", "m2"⟩,
        Recv.err ⟨429, "x", "m3"⟩, Recv.err ⟨429, "x", "m4"⟩] =
      some ⟨Except.error ⟨429, "x", "m3"⟩, 3, 3⟩ := by
  have h := client_get_retry_policy "x"
  exact ⟨h.2.2.1 ⟨429, "x", "m"⟩ ⟨429, "x", "m"⟩ ⟨"x", 5⟩ [] rfl rfl,
    h.2.2.2 ⟨429, "x", "m1"⟩ ⟨429, "x", "m2"⟩ ⟨429, "x", "m3"⟩ ⟨429, "x", "m4"⟩ []
      rfl rfl rfl rfl⟩

/-- C6: the drained registry holds at most one pending request per
identifier (its key list has no duplicates) and maps every identifier to the
channel of the last submission that used it.  When an earlier submission
(id, c1) is superseded by a later one with channel c2 ≠ c1, the pair
(id, c1) is absent from the registry, and no completed `process` run over
that registry ever signals channel c1 for that identifier — the earlier
caller never observes a response. -/
theorem duplicate_id_replaced_in_registry (pairs : List Entry) (id : String)
    (c1 c2 : Chan) :
    ((insertAll pairs).map Prod.fst).Nodup ∧
    (insertAll pairs).lookup id = pairs.reverse.lookup id ∧
    ((id, c1) ∈ pairs → pairs.reverse.lookup id = some c2 → c1 ≠ c2 →
      (id, c1) ∉ insertAll pairs ∧
      ∀ m rs res, process m (insertAll pairs) rs = POut.done res →
        (id, c1) ∉ (res.signals ++ res.late).map Prod.fst) := by
  refine ⟨insertAll_keys_nodup pairs, insertAll_lookup pairs id, ?_⟩
  intro hmem hlast hne
  have hlook : (insertAll pairs).lookup id = some c2 := by
    rw [insertAll_lookup]
    exact hlast
  have hnot : (id, c1) ∉ insertAll pairs := by
    intro hcon
    have h1 := lookup_eq_of_mem_nodup (insertAll_keys_nodup pairs) hcon
    rw [hlook] at h1
    exact hne (Option.some.inj h1).symm
  refine ⟨hnot, ?_⟩
  intro m rs res h hcon
  obtain ⟨hperm, -, -, -⟩ := process_done_spec h
  exact hnot (hperm.mem_iff.mp hcon)

/-- Concrete instance of `duplicate_id_replaced_in_registry`: `"a"`
submitted with channel 1 and later with channel 3 leaves only channel 3 in
the registry. -/
theorem duplicate_id_replaced_in_registry_witness :
    (((insertAll [("a", 1), ("b", 2), ("a", 3)]).map Prod.fst).Nodup ∧
      (insertAll [("a", 1), ("b", 2), ("a", 3)]).lookup "a" =
        [("a", 1), ("b", 2), ("a", 3)].reverse.lookup "a") ∧
    ("a", 1) ∉ insertAll [("a", 1), ("b", 2), ("a", 3)] := by
  have h := duplicate_id_replaced_in_registry [("a", 1), ("b", 2), ("a", 3)] "a" 1 3
  exact ⟨⟨h.1, h.2.1⟩, (h.2.2 (by decide) (by decide) (by decide)).1⟩

end Api

end RsEmbl
